import Mathlib

/-!
Verification of the `wen` command-line history manager
(`src/python/wen/wen.py`) against its specification.

The embedding models the sqlite store as a list of rows in insertion
order, Python's insertion-ordered dicts as association lists, and each
of the program's operations (`WenDB.get_sessions`, `WenDB.check_db`,
`WenDB.get_last_command`, `do_append`, `do_show`) as a pure function on
those lists.
-/

namespace Wen

/-- The `WenDB.ENTRYTYPE_*` constants: the three kinds of rows stored in
the `entries` table. -/
inductive EntryType where
  | history
  | session_start
  | session_stop
deriving DecidableEq, Repr

/-- One row of the `entries` table: `(entrytype, ts, pid, cmdline)`.
`ts` is a unix-epoch timestamp in whole seconds, `pid` an OS process id,
and `cmdline` a nullable TEXT column. -/
structure Entry where
  entrytype : EntryType
  ts : Nat
  pid : Nat
  cmdline : Option String
deriving DecidableEq, Repr

/-- A `(ts, cmdline)` pair as accumulated by `get_sessions`. -/
abbrev Pair := Nat × Option String

/-- An ordered list of `(ts, cmdline)` pairs: one session transcript. -/
abbrev Transcript := List Pair

/-- The `acc` dict of `get_sessions`: pid to pending pairs, insertion
ordered. -/
abbrev Acc := List (Nat × Transcript)

/-- The `sessions` dict of `get_sessions`: pid to the list of closed
transcripts, insertion ordered. -/
abbrev Sessions := List (Nat × List Transcript)

/-- The `flattened` dict of `get_sessions`: session name to transcript,
insertion ordered. -/
abbrev Flat := List (String × Transcript)

/-- Python dict read `d[k]` guarded by `k in d`, on an insertion-ordered
association list. -/
def dictGet [DecidableEq κ] (k : κ) : List (κ × β) → Option β
  | [] => none
  | (k', v) :: rest => if k' = k then some v else dictGet k rest

/-- Python `del d[k]` on an insertion-ordered association list (keys are
kept unique by construction, so removing the first binding suffices). -/
def dictErase [DecidableEq κ] (k : κ) : List (κ × β) → List (κ × β)
  | [] => []
  | (k', v) :: rest => if k' = k then rest else (k', v) :: dictErase k rest

/-- Python `d[k] = v`: replace the value in place when the key exists,
otherwise append the new binding at the end. -/
def dictInsert [DecidableEq κ] (k : κ) (v : β) : List (κ × β) → List (κ × β)
  | [] => [(k, v)]
  | (k', v') :: rest => if k' = k then (k, v) :: rest else (k', v') :: dictInsert k v rest

/-- The HISTORY branch of the `get_sessions` loop:
`if not pid in acc: acc[pid] = []` followed by `acc[pid].append(x)`. -/
def accAppend (pid : Nat) (x : Pair) : Acc → Acc
  | [] => [(pid, [x])]
  | (p, h) :: rest =>
    if p = pid then (p, h ++ [x]) :: rest else (p, h) :: accAppend pid x rest

/-- `add_to_sessions` inside `WenDB.get_sessions`: reverse the closed
accumulator and append it to this pid's list of completed transcripts
(creating the list when absent). -/
def add_to_sessions (pid : Nat) (history : Transcript) : Sessions → Sessions
  | [] => [(pid, [history.reverse])]
  | (p, hs) :: rest =>
    if p = pid then (p, hs ++ [history.reverse]) :: rest
    else (p, hs) :: add_to_sessions pid history rest

/-- One iteration of the event loop in `WenDB.get_sessions`, consuming one
cursor row against the state `(sessions, acc)`.  A HISTORY row extends the
open accumulator of its pid; a SESSION_START or SESSION_STOP row closes the
open accumulator when there is one and otherwise does nothing. -/
def step (st : Sessions × Acc) (e : Entry) : Sessions × Acc :=
  match e.entrytype with
  | .history => (st.1, accAppend e.pid (e.ts, e.cmdline) st.2)
  | .session_start =>
    match dictGet e.pid st.2 with
    | some h => (add_to_sessions e.pid h st.1, dictErase e.pid st.2)
    | none => st
  | .session_stop =>
    match dictGet e.pid st.2 with
    | some h => (add_to_sessions e.pid h st.1, dictErase e.pid st.2)
    | none => st

/-- The end-of-scan flush of `get_sessions`:
`for pid in acc: add_to_sessions(pid, acc[pid])`, in insertion order. -/
def flushAcc : Sessions → Acc → Sessions
  | sessions, [] => sessions
  | sessions, (p, h) :: rest => flushAcc (add_to_sessions p h sessions) rest

/-- The session identifier given to the completed transcript at position
`i` of its pid's list: bare `str(pid)` at position 0, otherwise
`"pid_i"` (Python `".._..".format(pid, i) if i > 0 else str(pid)`). -/
def sessionName (pid i : Nat) : String :=
  if i > 0 then toString pid ++ "_" ++ toString i else toString pid

/-- The inner flattening loop of `get_sessions`:
`for (i, history) in enumerate(histories): flattened[name] = history`. -/
def insertHistories (pid : Nat) : Nat → List Transcript → Flat → Flat
  | _, [], fl => fl
  | i, h :: hs, fl => insertHistories pid (i + 1) hs (dictInsert (sessionName pid i) h fl)

/-- The outer flattening loop of `get_sessions` over the `sessions` dict,
in insertion order. -/
def flattenSessions : Sessions → Flat → Flat
  | [], fl => fl
  | (p, hs) :: rest, fl => flattenSessions rest (insertHistories p 0 hs fl)

/-- `WenDB.get_sessions` with no limit.  `events` is the row sequence the
cursor yields, i.e. the stored entries in descending timestamp order. -/
def get_sessions (events : List Entry) : Flat :=
  flattenSessions (flushAcc (events.foldl step ([], [])).1 (events.foldl step ([], [])).2) []

/-- The read path feeding `get_sessions`: the store is queried with
`ORDER BY ts DESC`, so a log appended in non-decreasing timestamp order
(timestamp ties resolved by the index scan most-recent-row-first) is
returned in reverse insertion order. -/
def storeRead (log : List Entry) : List Entry := log.reverse

/-- The module-level `IGNORE_LIST` constant. -/
def IGNORE_LIST : List String := ["pwd", "ls"]

/-- `PRAGMA application_id` expected by `check_db` (`'wen'`). -/
def DB_APPLICATION_ID : Int := 0x6e6577

/-- `PRAGMA user_version` expected by `check_db`. -/
def DB_VERSION : Int := 7

/-- `WenDB.check_db`, on the two pragma values read from the store file:
raises `DBExn` (modelled as `Except.error` with the message) when either
tag differs from the expected constant, and returns `True` otherwise. -/
def check_db (db_app_id db_version : Int) : Except String Bool :=
  if db_app_id ≠ DB_APPLICATION_ID then
    Except.error "Database does not have correct application ID."
  else if db_version ≠ DB_VERSION then
    Except.error "Database does not have correct version."
  else
    Except.ok true

/-- What an invocation of `main` does after opening the store. -/
inductive MainOutcome where
  /-- The requested command ran; `fresh` is true when it ran against a
  newly created store rather than the pre-existing one. -/
  | opRan (fresh : Bool)
  /-- `main` returned -1 without running the requested command. -/
  | aborted
deriving DecidableEq, Repr

/-- The store-opening logic of `main`: an existing store file is checked
with `check_db` before the requested command runs; a failed check aborts
the invocation unless `--fix` renames the file aside and reinitializes a
fresh store.  A missing file is initialized fresh without a check. -/
def main_gate (db_exists : Bool) (db_app_id db_version : Int) (fix : Bool) : MainOutcome :=
  if db_exists then
    match check_db db_app_id db_version with
    | Except.ok _ => .opRan false
    | Except.error _ => if fix then .opRan true else .aborted
  else
    .opRan true

/-- The fold step of `WenDB.get_last_command`: keep the HISTORY row for
`pid` with the greatest timestamp; on a timestamp tie the later row wins,
matching the descending `(pid, ts)` index scan of
`ORDER BY ts DESC LIMIT 1`, which yields ties most-recently-inserted
first. -/
def betterLast (pid : Nat) (best : Option Entry) (e : Entry) : Option Entry :=
  if e.entrytype = .history ∧ e.pid = pid then
    match best with
    | none => some e
    | some b => if b.ts ≤ e.ts then some e else some b
  else
    best

/-- `WenDB.get_last_command`: the cmdline of the most recent HISTORY row
for `pid`, or `none` when there is no such row (or its cmdline is NULL —
Python returns `None` in both cases).  `log` is in insertion order. -/
def get_last_command (log : List Entry) (pid : Nat) : Option String :=
  (log.foldl (betterLast pid) none).bind Entry.cmdline

/-- `do_start_session`: unconditionally append a SESSION_START row. -/
def do_start_session (ts pid : Nat) (cmdline : Option String) (log : List Entry) : List Entry :=
  log ++ [⟨.session_start, ts, pid, cmdline⟩]

/-- `do_stop_session`: unconditionally append a SESSION_STOP row. -/
def do_stop_session (ts pid : Nat) (cmdline : Option String) (log : List Entry) : List Entry :=
  log ++ [⟨.session_stop, ts, pid, cmdline⟩]

/-- Python `str.strip()`: drop whitespace from both ends of the string
(structural recursion over the character list, so that concrete instances
compute). -/
def pyStrip (s : String) : String :=
  ⟨((s.data.dropWhile Char.isWhitespace).reverse.dropWhile Char.isWhitespace).reverse⟩

/-- `do_append`: append a HISTORY row unless one of the suppression rules
fires, in which case the log is returned unchanged.  The checks, in
source order: empty or absent cmdline; leading space (when
`ignore_space`); stripped cmdline in `IGNORE_LIST`; identical most recent
command for this pid (when `ignore_dups`). -/
def do_append (ts pid : Nat) (cmdline : Option String) (ignore_dups ignore_space : Bool)
    (log : List Entry) : List Entry :=
  match cmdline with
  | none => log
  | some c =>
    if c = "" then log
    else if ignore_space = true ∧ c.front = ' ' then log
    else if pyStrip c ∈ IGNORE_LIST then log
    else if ignore_dups = true ∧ get_last_command log pid = some c then log
    else log ++ [⟨.history, ts, pid, some c⟩]

/-- `hist_key` inside `do_show`: the timestamp of the last entry of a
transcript, `None` for an empty transcript. -/
def hist_key (hist : Transcript) : Option Nat :=
  hist.getLast?.map Prod.fst

/-- The comparison `sorted` uses in `do_show`, on the `hist_key` values.
Python raises on comparing `None` with an int; transcripts produced by
`get_sessions` are never empty, so the `none` branches are unreachable in
the modelled pipeline and are totalized with `none` ordered first. -/
def keyLe : Option Nat → Option Nat → Bool
  | none, _ => true
  | some _, none => false
  | some a, some b => a ≤ b

/-- The sorted session list `do_show` renders: Python's stable `sorted`
on `hist_key` of each transcript, modelled by the stable
`List.mergeSort`. -/
def do_show_items (events : List Entry) : Flat :=
  (get_sessions events).mergeSort (fun a b => keyLe (hist_key a.2) (hist_key b.2))

/-- Chained recorder invocations: fold `do_append` (with both suppression
flags at their defaults unless stated otherwise) over a list of
`(ts, cmdline)` commands for one pid. -/
def appendAll (pid : Nat) (ignore_dups ignore_space : Bool) (cmds : List (Nat × String))
    (log : List Entry) : List Entry :=
  cmds.foldl (fun l tc => do_append tc.1 pid (some tc.2) ignore_dups ignore_space l) log

/-! Derived quantities used to state the claims. -/

/-- All completed transcripts of the `sessions` dict, in dict order. -/
def transcripts (S : Sessions) : List Transcript :=
  (S.map Prod.snd).flatten

/-- All pending pairs held by the `acc` dict, in dict order. -/
def accPairs (acc : Acc) : List Pair :=
  (acc.map Prod.snd).flatten

/-- All pairs of all completed transcripts of the `sessions` dict, in
dict order. -/
def sessPairs (S : Sessions) : List Pair :=
  (transcripts S).flatten

/-- The `(ts, cmdline)` pairs of the HISTORY events of a stream, in
stream order. -/
def histPairs (events : List Entry) : List Pair :=
  events.filterMap fun e =>
    match e.entrytype with
    | .history => some (e.ts, e.cmdline)
    | _ => none

/-- The number of completed transcripts across all pids once the scan and
the end-of-scan flush are done. -/
def totalTranscripts (events : List Entry) : Nat :=
  (transcripts (flushAcc (events.foldl step ([], [])).1 (events.foldl step ([], [])).2)).length

/-- The bindings `enumerate` produces for one pid's completed list:
position `k` (counting from `i`) is named `sessionName pid k`. -/
def labeled (pid : Nat) : Nat → List Transcript → Flat
  | _, [] => []
  | i, h :: hs => (sessionName pid i, h) :: labeled pid (i + 1) hs

/-- The fully flattened dict as a plain list of fresh bindings, one group
per pid in dict order. -/
def flatOf : Sessions → Flat
  | [] => []
  | (p, hs) :: rest => labeled p 0 hs ++ flatOf rest

/-- Decimal digits of a natural number, most significant first: the
structural-recursion counterpart of `Nat.toDigits 10`. -/
def decRepr (n : Nat) : List Char :=
  if _h : n < 10 then [Nat.digitChar n]
  else decRepr (n / 10) ++ [Nat.digitChar (n % 10)]
decreasing_by exact Nat.div_lt_self (by omega) (by omega)

/-! ### Decimal representation facts

`sessionName` builds identifiers out of `toString` of naturals; the
flattening step of `get_sessions` is collision-free because decimal
numerals are injective and never contain the separator `'_'`. -/

theorem digitChar_isDigit : ∀ n < 10, (Nat.digitChar n).isDigit = true := by decide

theorem digitChar_inj10 : ∀ m < 10, ∀ n < 10, Nat.digitChar m = Nat.digitChar n → m = n := by
  decide

theorem decRepr_ne_nil (n : Nat) : decRepr n ≠ [] := by
  rw [decRepr]
  split <;> simp

theorem decRepr_concat (n : Nat) :
    decRepr n = (if n < 10 then [] else decRepr (n / 10)) ++ [Nat.digitChar (n % 10)] := by
  rw [decRepr]
  split
  · next h => simp [h, Nat.mod_eq_of_lt h]
  · next h => simp [h]

theorem toDigitsCore_eq_decRepr :
    ∀ (fuel n : Nat) (acc : List Char), n < fuel →
      Nat.toDigitsCore 10 fuel n acc = decRepr n ++ acc := by
  intro fuel
  induction fuel with
  | zero => intro n acc h; omega
  | succ f ih =>
    intro n acc h
    by_cases h10 : n / 10 = 0
    · have hn : n < 10 := by omega
      simp [Nat.toDigitsCore, h10, decRepr_concat n, if_pos hn, Nat.mod_eq_of_lt hn]
    · have hn : ¬ n < 10 := by omega
      have hlt : n / 10 < f := by omega
      simp only [Nat.toDigitsCore, h10, if_neg h10]
      rw [ih (n / 10) _ hlt, decRepr_concat n, if_neg hn]
      simp

theorem repr_data (n : Nat) : (Nat.repr n).data = decRepr n := by
  have h := toDigitsCore_eq_decRepr (n + 1) n [] (by omega)
  simp [Nat.repr, Nat.toDigits, h, List.asString]

theorem decRepr_digits (n : Nat) : ∀ c ∈ decRepr n, c.isDigit = true := by
  induction n using Nat.strong_induction_on with
  | _ n ih =>
    rw [decRepr_concat]
    intro c hc
    rcases List.mem_append.mp hc with h1 | h2
    · by_cases hn : n < 10
      · rw [if_pos hn] at h1; simp at h1
      · rw [if_neg hn] at h1
        exact ih (n / 10) (by omega) c h1
    · simp at h2
      subst h2
      exact digitChar_isDigit _ (by omega)

theorem decRepr_inj : ∀ m n : Nat, decRepr m = decRepr n → m = n := by
  intro m
  induction m using Nat.strong_induction_on with
  | _ m ih =>
    intro n h
    rw [decRepr_concat m, decRepr_concat n] at h
    obtain ⟨h1, h2⟩ := List.append_inj' h rfl
    have hmod : m % 10 = n % 10 :=
      digitChar_inj10 _ (by omega) _ (by omega) (by simpa using h2)
    by_cases hm : m < 10 <;> by_cases hn : n < 10
    · omega
    · rw [if_pos hm, if_neg hn] at h1
      exact absurd h1.symm (decRepr_ne_nil _)
    · rw [if_neg hm, if_pos hn] at h1
      exact absurd h1 (decRepr_ne_nil _)
    · rw [if_neg hm, if_neg hn] at h1
      have := ih (m / 10) (by omega) (n / 10) h1
      omega

theorem repr_inj {m n : Nat} (h : Nat.repr m = Nat.repr n) : m = n :=
  decRepr_inj m n (by rw [← repr_data, ← repr_data, h])

theorem repr_no_underscore (n : Nat) : '_' ∉ (Nat.repr n).data := by
  intro hmem
  rw [repr_data] at hmem
  have := decRepr_digits n '_' hmem
  exact absurd this (by decide)

theorem toString_nat (n : Nat) : (toString n : String) = Nat.repr n := rfl

theorem sessionName_zero (p : Nat) : sessionName p 0 = toString p := by
  simp [sessionName]

theorem sessionName_pos (p i : Nat) (h : 0 < i) :
    sessionName p i = toString p ++ "_" ++ toString i := by
  simp [sessionName, h]

theorem sessionName_pos_data (p i : Nat) (h : 0 < i) :
    (sessionName p i).data = (Nat.repr p).data ++ '_' :: (Nat.repr i).data := by
  rw [sessionName_pos p i h, String.data_append, String.data_append, List.append_assoc,
    toString_nat, toString_nat]
  rfl

theorem sep_inj :
    ∀ (a : List Char) (b c d : List Char), a ++ '_' :: b = c ++ '_' :: d →
      '_' ∉ a → '_' ∉ c → a = c ∧ b = d := by
  intro a
  induction a with
  | nil =>
    intro b c d h ha hc
    cases c with
    | nil => simpa using h
    | cons y yt =>
      simp only [List.nil_append, List.cons_append, List.cons.injEq] at h
      exact absurd (h.1 ▸ List.mem_cons_self y yt) hc
  | cons x xt ih =>
    intro b c d h ha hc
    cases c with
    | nil =>
      simp only [List.nil_append, List.cons_append, List.cons.injEq] at h
      exact absurd (h.1 ▸ List.mem_cons_self x xt) ha
    | cons y yt =>
      simp only [List.cons_append, List.cons.injEq] at h
      obtain ⟨hxy, hrest⟩ := h
      have hxa : '_' ∉ xt := fun hm => ha (List.mem_cons_of_mem _ hm)
      have hyc : '_' ∉ yt := fun hm => hc (List.mem_cons_of_mem _ hm)
      obtain ⟨h1, h2⟩ := ih b yt d hrest hxa hyc
      exact ⟨by rw [hxy, h1], h2⟩

theorem sessionName_inj {p i q j : Nat} (h : sessionName p i = sessionName q j) :
    p = q ∧ i = j := by
  have hd := congrArg String.data h
  by_cases hi : 0 < i <;> by_cases hj : 0 < j
  · rw [sessionName_pos_data p i hi, sessionName_pos_data q j hj] at hd
    obtain ⟨h1, h2⟩ := sep_inj _ _ _ _ hd (repr_no_underscore p) (repr_no_underscore q)
    exact ⟨repr_inj (String.ext h1), repr_inj (String.ext h2)⟩
  · have hj0 : j = 0 := by omega
    subst hj0
    rw [sessionName_pos_data p i hi, sessionName_zero, toString_nat] at hd
    have : '_' ∈ (Nat.repr q).data := by
      rw [← hd]
      exact List.mem_append_right _ (List.mem_cons_self _ _)
    exact absurd this (repr_no_underscore q)
  · have hi0 : i = 0 := by omega
    subst hi0
    rw [sessionName_pos_data q j hj, sessionName_zero, toString_nat] at hd
    have : '_' ∈ (Nat.repr p).data := by
      rw [hd]
      exact List.mem_append_right _ (List.mem_cons_self _ _)
    exact absurd this (repr_no_underscore p)
  · have hi0 : i = 0 := by omega
    have hj0 : j = 0 := by omega
    subst hi0; subst hj0
    rw [sessionName_zero, sessionName_zero, toString_nat, toString_nat] at h
    exact ⟨repr_inj h, rfl⟩

/-! ### Association-list lemmas -/

theorem dictInsert_fresh [DecidableEq κ] (k : κ) (v : β) :
    ∀ l : List (κ × β), k ∉ l.map Prod.fst → dictInsert k v l = l ++ [(k, v)] := by
  intro l
  induction l with
  | nil => intro _; rfl
  | cons kv rest ih =>
    intro h
    obtain ⟨k', v'⟩ := kv
    simp only [List.map_cons, List.mem_cons] at h
    push_neg at h
    simp only [dictInsert, if_neg (Ne.symm h.1)]
    rw [ih h.2]
    rfl

theorem dictGet_mem [DecidableEq κ] (k : κ) :
    ∀ {l : List (κ × β)} {v : β}, dictGet k l = some v → (k, v) ∈ l := by
  intro l
  induction l with
  | nil => intro v h; simp [dictGet] at h
  | cons kv rest ih =>
    intro v h
    obtain ⟨k', v'⟩ := kv
    by_cases hk : k' = k
    · simp only [dictGet, if_pos hk] at h
      obtain rfl := Option.some.injEq _ _ ▸ h
      subst hk
      exact List.mem_cons_self _ _
    · simp only [dictGet, if_neg hk] at h
      exact List.mem_cons_of_mem _ (ih h)

theorem dictErase_sublist [DecidableEq κ] (k : κ) :
    ∀ l : List (κ × β), List.Sublist (dictErase k l) l := by
  intro l
  induction l with
  | nil => simp [dictErase]
  | cons kv rest ih =>
    obtain ⟨k', v'⟩ := kv
    by_cases hk : k' = k
    · simp only [dictErase, if_pos hk]
      exact List.sublist_cons_self (k', v') rest
    · simpa [dictErase, if_neg hk] using List.Sublist.cons₂ (k', v') ih

theorem mem_keys_accAppend {pid : Nat} {x : Pair} :
    ∀ {acc : Acc} {q : Nat}, q ∈ (accAppend pid x acc).map Prod.fst →
      q ∈ acc.map Prod.fst ∨ q = pid := by
  intro acc
  induction acc with
  | nil => intro q h; simp [accAppend] at h; exact Or.inr h
  | cons ph rest ih =>
    intro q h
    obtain ⟨p, hst⟩ := ph
    by_cases hp : p = pid
    · simp only [accAppend, if_pos hp, List.map_cons, List.mem_cons] at h ⊢
      tauto
    · simp only [accAppend, if_neg hp, List.map_cons, List.mem_cons] at h ⊢
      rcases h with h | h
      · exact Or.inl (Or.inl h)
      · rcases ih h with h' | h'
        · exact Or.inl (Or.inr h')
        · exact Or.inr h'

theorem nodup_keys_accAppend {pid : Nat} {x : Pair} :
    ∀ {acc : Acc}, (acc.map Prod.fst).Nodup → ((accAppend pid x acc).map Prod.fst).Nodup := by
  intro acc
  induction acc with
  | nil => intro _; simp [accAppend]
  | cons ph rest ih =>
    intro h
    obtain ⟨p, hst⟩ := ph
    simp only [List.map_cons, List.nodup_cons] at h
    by_cases hp : p = pid
    · simp only [accAppend, if_pos hp, List.map_cons, List.nodup_cons]
      exact h
    · simp only [accAppend, if_neg hp, List.map_cons, List.nodup_cons]
      refine ⟨fun hmem => ?_, ih h.2⟩
      rcases mem_keys_accAppend hmem with h' | h'
      · exact h.1 h'
      · exact hp h'

theorem mem_keys_add_to_sessions {pid : Nat} {hist : Transcript} :
    ∀ {S : Sessions} {q : Nat}, q ∈ (add_to_sessions pid hist S).map Prod.fst →
      q ∈ S.map Prod.fst ∨ q = pid := by
  intro S
  induction S with
  | nil => intro q h; simp [add_to_sessions] at h; exact Or.inr h
  | cons ph rest ih =>
    intro q h
    obtain ⟨p, hs⟩ := ph
    by_cases hp : p = pid
    · simp only [add_to_sessions, if_pos hp, List.map_cons, List.mem_cons] at h ⊢
      tauto
    · simp only [add_to_sessions, if_neg hp, List.map_cons, List.mem_cons] at h ⊢
      rcases h with h | h
      · exact Or.inl (Or.inl h)
      · rcases ih h with h' | h'
        · exact Or.inl (Or.inr h')
        · exact Or.inr h'

theorem nodup_keys_add_to_sessions {pid : Nat} {hist : Transcript} :
    ∀ {S : Sessions}, (S.map Prod.fst).Nodup →
      ((add_to_sessions pid hist S).map Prod.fst).Nodup := by
  intro S
  induction S with
  | nil => intro _; simp [add_to_sessions]
  | cons ph rest ih =>
    intro h
    obtain ⟨p, hs⟩ := ph
    simp only [List.map_cons, List.nodup_cons] at h
    by_cases hp : p = pid
    · simp only [add_to_sessions, if_pos hp, List.map_cons, List.nodup_cons]
      exact h
    · simp only [add_to_sessions, if_neg hp, List.map_cons, List.nodup_cons]
      refine ⟨fun hmem => ?_, ih h.2⟩
      rcases mem_keys_add_to_sessions hmem with h' | h'
      · exact h.1 h'
      · exact hp h'

theorem nodup_keys_step {st : Sessions × Acc} {e : Entry}
    (hS : (st.1.map Prod.fst).Nodup) (hA : (st.2.map Prod.fst).Nodup) :
    ((step st e).1.map Prod.fst).Nodup ∧ ((step st e).2.map Prod.fst).Nodup := by
  obtain ⟨S, acc⟩ := st
  have herase : ((dictErase e.pid acc).map Prod.fst).Nodup :=
    List.Nodup.sublist ((dictErase_sublist e.pid acc).map Prod.fst) hA
  cases he : e.entrytype <;> simp only [step, he]
  · exact ⟨hS, nodup_keys_accAppend hA⟩
  · cases hg : dictGet e.pid acc
    · exact ⟨hS, hA⟩
    · exact ⟨nodup_keys_add_to_sessions hS, herase⟩
  · cases hg : dictGet e.pid acc
    · exact ⟨hS, hA⟩
    · exact ⟨nodup_keys_add_to_sessions hS, herase⟩

theorem nodup_keys_foldl :
    ∀ (events : List Entry) (st : Sessions × Acc),
      (st.1.map Prod.fst).Nodup → (st.2.map Prod.fst).Nodup →
      ((events.foldl step st).1.map Prod.fst).Nodup ∧
        ((events.foldl step st).2.map Prod.fst).Nodup := by
  intro events
  induction events with
  | nil => intro st h1 h2; exact ⟨h1, h2⟩
  | cons e rest ih =>
    intro st h1 h2
    have := @nodup_keys_step st e h1 h2
    exact ih (step st e) this.1 this.2

theorem nodup_keys_flushAcc :
    ∀ (acc : Acc) (S : Sessions), (S.map Prod.fst).Nodup →
      ((flushAcc S acc).map Prod.fst).Nodup := by
  intro acc
  induction acc with
  | nil => intro S h; exact h
  | cons ph rest ih =>
    intro S h
    obtain ⟨p, hist⟩ := ph
    exact ih (add_to_sessions p hist S) (nodup_keys_add_to_sessions h)

/-! ### The flattening step as a list of fresh bindings -/

theorem labeled_map_snd (p : Nat) :
    ∀ (hs : List Transcript) (i : Nat), (labeled p i hs).map Prod.snd = hs := by
  intro hs
  induction hs with
  | nil => intro i; rfl
  | cons h t ih => intro i; simp [labeled, ih (i + 1)]

theorem mem_keys_labeled {p : Nat} :
    ∀ (hs : List Transcript) (i : Nat) (s : String),
      s ∈ (labeled p i hs).map Prod.fst → ∃ k, i ≤ k ∧ s = sessionName p k := by
  intro hs
  induction hs with
  | nil => intro i s h; simp [labeled] at h
  | cons h t ih =>
    intro i s hmem
    simp only [labeled, List.map_cons, List.mem_cons] at hmem
    rcases hmem with h1 | h2
    · exact ⟨i, Nat.le_refl i, h1⟩
    · obtain ⟨k, hk, hs'⟩ := ih (i + 1) s h2
      exact ⟨k, by omega, hs'⟩

theorem nodup_keys_labeled (p : Nat) :
    ∀ (hs : List Transcript) (i : Nat), ((labeled p i hs).map Prod.fst).Nodup := by
  intro hs
  induction hs with
  | nil => intro i; simp [labeled]
  | cons h t ih =>
    intro i
    simp only [labeled, List.map_cons, List.nodup_cons]
    refine ⟨fun hmem => ?_, ih (i + 1)⟩
    obtain ⟨k, hk, heq⟩ := mem_keys_labeled t (i + 1) _ hmem
    have := (sessionName_inj heq).2
    omega

theorem insertHistories_eq (p : Nat) :
    ∀ (hs : List Transcript) (i : Nat) (fl : Flat),
      (∀ k, i ≤ k → sessionName p k ∉ fl.map Prod.fst) →
      insertHistories p i hs fl = fl ++ labeled p i hs := by
  intro hs
  induction hs with
  | nil => intro i fl _; simp [insertHistories, labeled]
  | cons h t ih =>
    intro i fl hfresh
    simp only [insertHistories, labeled]
    rw [dictInsert_fresh _ _ _ (hfresh i (Nat.le_refl i))]
    have hfresh' : ∀ k, i + 1 ≤ k →
        sessionName p k ∉ (fl ++ [(sessionName p i, h)]).map Prod.fst := by
      intro k hk
      simp only [List.map_append, List.mem_append, List.map_cons, List.map_nil,
        List.mem_singleton]
      push_neg
      refine ⟨hfresh k (by omega), fun heq => ?_⟩
      have := (sessionName_inj heq).2
      omega
    rw [ih (i + 1) _ hfresh']
    simp

theorem flattenSessions_eq :
    ∀ (S : Sessions) (fl : Flat),
      (S.map Prod.fst).Nodup →
      (∀ pr ∈ S, ∀ k, sessionName pr.1 k ∉ fl.map Prod.fst) →
      flattenSessions S fl = fl ++ flatOf S := by
  intro S
  induction S with
  | nil => intro fl _ _; simp [flattenSessions, flatOf]
  | cons ph rest ih =>
    intro fl hnd hfresh
    obtain ⟨p, hs⟩ := ph
    simp only [List.map_cons, List.nodup_cons] at hnd
    simp only [flattenSessions, flatOf]
    rw [insertHistories_eq p hs 0 fl (fun k _ => hfresh (p, hs) (List.mem_cons_self _ _) k)]
    have hfresh' : ∀ pr ∈ rest, ∀ k,
        sessionName pr.1 k ∉ (fl ++ labeled p 0 hs).map Prod.fst := by
      intro pr hpr k
      simp only [List.map_append, List.mem_append]
      push_neg
      refine ⟨hfresh pr (List.mem_cons_of_mem _ hpr) k, fun hmem => ?_⟩
      obtain ⟨k', _, heq⟩ := mem_keys_labeled hs 0 _ hmem
      have hpq := (sessionName_inj heq).1
      exact hnd.1 (hpq ▸ List.mem_map_of_mem Prod.fst hpr)
    rw [ih (fl ++ labeled p 0 hs) hnd.2 hfresh']
    simp

theorem transcripts_cons (p : Nat) (hs : List Transcript) (rest : Sessions) :
    transcripts ((p, hs) :: rest) = hs ++ transcripts rest := by
  simp [transcripts]

theorem flatOf_map_snd : ∀ S : Sessions, (flatOf S).map Prod.snd = transcripts S := by
  intro S
  induction S with
  | nil => rfl
  | cons ph rest ih =>
    obtain ⟨p, hs⟩ := ph
    simp [flatOf, transcripts_cons, labeled_map_snd, ih]

theorem mem_keys_flatOf :
    ∀ {S : Sessions} {s : String}, s ∈ (flatOf S).map Prod.fst →
      ∃ pr ∈ S, ∃ k, s = sessionName pr.1 k := by
  intro S
  induction S with
  | nil => intro s h; simp [flatOf] at h
  | cons ph rest ih =>
    intro s h
    obtain ⟨p, hs⟩ := ph
    simp only [flatOf, List.map_append, List.mem_append] at h
    rcases h with h | h
    · obtain ⟨k, _, heq⟩ := mem_keys_labeled hs 0 s h
      exact ⟨(p, hs), List.mem_cons_self _ _, k, heq⟩
    · obtain ⟨pr, hpr, k, heq⟩ := ih h
      exact ⟨pr, List.mem_cons_of_mem _ hpr, k, heq⟩

theorem nodup_keys_flatOf :
    ∀ {S : Sessions}, (S.map Prod.fst).Nodup → ((flatOf S).map Prod.fst).Nodup := by
  intro S
  induction S with
  | nil => intro _; simp [flatOf]
  | cons ph rest ih =>
    intro hnd
    obtain ⟨p, hs⟩ := ph
    simp only [List.map_cons, List.nodup_cons] at hnd
    simp only [flatOf, List.map_append]
    rw [List.nodup_append]
    refine ⟨nodup_keys_labeled p hs 0, ih hnd.2, ?_⟩
    intro a ha hb
    obtain ⟨k, _, heqa⟩ := mem_keys_labeled hs 0 a ha
    obtain ⟨pr, hpr, k', heqb⟩ := mem_keys_flatOf hb
    have := (sessionName_inj (heqa ▸ heqb)).1
    exact hnd.1 (this ▸ List.mem_map_of_mem Prod.fst hpr)

theorem get_sessions_eq (events : List Entry) :
    get_sessions events =
      flatOf (flushAcc (events.foldl step ([], [])).1 (events.foldl step ([], [])).2) := by
  have hnd := nodup_keys_foldl events ([], []) (by simp) (by simp)
  rw [get_sessions, flattenSessions_eq _ []
    (nodup_keys_flushAcc _ _ hnd.1) (by simp)]
  simp

/-! ### Conservation of history pairs through the scan -/

theorem accPairs_cons (p : Nat) (h : Transcript) (rest : Acc) :
    accPairs ((p, h) :: rest) = h ++ accPairs rest := by
  simp [accPairs]

theorem accPairs_accAppend (pid : Nat) (x : Pair) :
    ∀ acc : Acc, (accPairs (accAppend pid x acc) : Multiset Pair) =
      (accPairs acc : Multiset Pair) + {x} := by
  intro acc
  induction acc with
  | nil => simp [accAppend, accPairs]
  | cons ph rest ih =>
    obtain ⟨p, h⟩ := ph
    by_cases hp : p = pid
    · simp only [accAppend, if_pos hp, accPairs_cons, ← Multiset.coe_add,
        Multiset.coe_singleton]
      abel
    · simp only [accAppend, if_neg hp, accPairs_cons, ← Multiset.coe_add, ih]
      abel

theorem accPairs_dictGet_erase (k : Nat) :
    ∀ (acc : Acc) (v : Transcript), dictGet k acc = some v →
      (accPairs acc : Multiset Pair) =
        (v : Multiset Pair) + (accPairs (dictErase k acc) : Multiset Pair) := by
  intro acc
  induction acc with
  | nil => intro v h; simp [dictGet] at h
  | cons ph rest ih =>
    intro v h
    obtain ⟨p, w⟩ := ph
    by_cases hp : p = k
    · simp only [dictGet, if_pos hp] at h
      have hv : w = v := Option.some.inj h
      subst hv
      simp [dictErase, if_pos hp, accPairs_cons, ← Multiset.coe_add]
    · simp only [dictGet, if_neg hp] at h
      simp only [dictErase, if_neg hp, accPairs_cons, ← Multiset.coe_add, ih v h]
      abel

theorem sessPairs_cons (p : Nat) (hs : List Transcript) (rest : Sessions) :
    sessPairs ((p, hs) :: rest) = hs.flatten ++ sessPairs rest := by
  simp [sessPairs, transcripts_cons]

theorem sessPairs_add_to_sessions (pid : Nat) (h : Transcript) :
    ∀ S : Sessions, (sessPairs (add_to_sessions pid h S) : Multiset Pair) =
      (sessPairs S : Multiset Pair) + (h : Multiset Pair) := by
  intro S
  induction S with
  | nil =>
    simp [add_to_sessions, sessPairs, transcripts, Multiset.coe_reverse]
  | cons ph rest ih =>
    obtain ⟨p, hs⟩ := ph
    by_cases hp : p = pid
    · simp only [add_to_sessions, if_pos hp, sessPairs_cons, List.flatten_append,
        List.flatten_cons, List.flatten_nil, List.append_nil, ← Multiset.coe_add,
        Multiset.coe_reverse]
      abel
    · simp only [add_to_sessions, if_neg hp, sessPairs_cons, ← Multiset.coe_add, ih]
      abel

theorem sessPairs_flushAcc :
    ∀ (acc : Acc) (S : Sessions), (sessPairs (flushAcc S acc) : Multiset Pair) =
      (sessPairs S : Multiset Pair) + (accPairs acc : Multiset Pair) := by
  intro acc
  induction acc with
  | nil => intro S; simp [flushAcc, accPairs]
  | cons ph rest ih =>
    intro S
    obtain ⟨p, h⟩ := ph
    simp only [flushAcc, ih, sessPairs_add_to_sessions, accPairs_cons, ← Multiset.coe_add]
    abel

theorem fold_pairs :
    ∀ (events : List Entry) (st : Sessions × Acc),
      (sessPairs (events.foldl step st).1 : Multiset Pair) +
          (accPairs (events.foldl step st).2 : Multiset Pair) =
        (sessPairs st.1 : Multiset Pair) + (accPairs st.2 : Multiset Pair) +
          (histPairs events : Multiset Pair) := by
  intro events
  induction events with
  | nil => intro st; simp [histPairs]
  | cons e rest ih =>
    intro st
    obtain ⟨S, acc⟩ := st
    rw [List.foldl_cons, ih]
    cases he : e.entrytype
    · simp only [step, he, accPairs_accAppend, histPairs, List.filterMap_cons, he,
        ← Multiset.cons_coe, ← Multiset.singleton_add]
      abel
    · cases hg : dictGet e.pid acc
      · simp only [step, he, hg]
        have : histPairs (e :: rest) = histPairs rest := by
          simp [histPairs, List.filterMap_cons, he]
        rw [this]
      · next h =>
        simp only [step, he, hg, sessPairs_add_to_sessions]
        rw [accPairs_dictGet_erase e.pid acc h hg]
        have : histPairs (e :: rest) = histPairs rest := by
          simp [histPairs, List.filterMap_cons, he]
        rw [this]
        abel
    · cases hg : dictGet e.pid acc
      · simp only [step, he, hg]
        have : histPairs (e :: rest) = histPairs rest := by
          simp [histPairs, List.filterMap_cons, he]
        rw [this]
      · next h =>
        simp only [step, he, hg, sessPairs_add_to_sessions]
        rw [accPairs_dictGet_erase e.pid acc h hg]
        have : histPairs (e :: rest) = histPairs rest := by
          simp [histPairs, List.filterMap_cons, he]
        rw [this]
        abel

/-! ### No empty transcript is ever emitted -/

theorem accAppend_vals_ne_nil {pid : Nat} {x : Pair} :
    ∀ {acc : Acc}, (∀ pr ∈ acc, pr.2 ≠ []) → ∀ pr ∈ accAppend pid x acc, pr.2 ≠ [] := by
  intro acc
  induction acc with
  | nil =>
    intro _ pr hpr
    simp only [accAppend, List.mem_singleton] at hpr
    subst hpr
    simp
  | cons ph rest ih =>
    intro hne pr hpr
    obtain ⟨p, h⟩ := ph
    by_cases hp : p = pid
    · simp only [accAppend, if_pos hp, List.mem_cons] at hpr
      rcases hpr with hpr | hpr
      · subst hpr; simp
      · exact hne pr (List.mem_cons_of_mem _ hpr)
    · simp only [accAppend, if_neg hp, List.mem_cons] at hpr
      rcases hpr with hpr | hpr
      · subst hpr; exact hne (p, h) (List.mem_cons_self _ _)
      · exact ih (fun q hq => hne q (List.mem_cons_of_mem _ hq)) pr hpr

theorem transcripts_add_mem {pid : Nat} {h : Transcript} :
    ∀ {S : Sessions} {t : Transcript}, t ∈ transcripts (add_to_sessions pid h S) →
      t = h.reverse ∨ t ∈ transcripts S := by
  intro S
  induction S with
  | nil =>
    intro t ht
    simp only [add_to_sessions, transcripts, List.map_cons, List.map_nil,
      List.flatten_cons, List.flatten_nil, List.append_nil, List.mem_singleton] at ht
    exact Or.inl ht
  | cons ph rest ih =>
    intro t ht
    obtain ⟨p, hs⟩ := ph
    by_cases hp : p = pid
    · rw [show add_to_sessions pid h ((p, hs) :: rest) =
          (p, hs ++ [h.reverse]) :: rest from by simp [add_to_sessions, hp]] at ht
      rw [transcripts_cons] at ht
      rcases List.mem_append.mp ht with ht | ht
      · rcases List.mem_append.mp ht with ht | ht
        · exact Or.inr (by rw [transcripts_cons]; exact List.mem_append_left _ ht)
        · exact Or.inl (List.mem_singleton.mp ht)
      · exact Or.inr (by rw [transcripts_cons]; exact List.mem_append_right _ ht)
    · rw [show add_to_sessions pid h ((p, hs) :: rest) =
          (p, hs) :: add_to_sessions pid h rest by simp [add_to_sessions, hp]] at ht
      rw [transcripts_cons] at ht
      rcases List.mem_append.mp ht with ht | ht
      · exact Or.inr (by rw [transcripts_cons]; exact List.mem_append_left _ ht)
      · rcases ih ht with ht' | ht'
        · exact Or.inl ht'
        · exact Or.inr (by rw [transcripts_cons]; exact List.mem_append_right _ ht')

theorem step_ne_nil {st : Sessions × Acc} {e : Entry}
    (hS : ∀ t ∈ transcripts st.1, t ≠ []) (hA : ∀ pr ∈ st.2, pr.2 ≠ []) :
    (∀ t ∈ transcripts (step st e).1, t ≠ []) ∧ (∀ pr ∈ (step st e).2, pr.2 ≠ []) := by
  obtain ⟨S, acc⟩ := st
  have herase : ∀ pr ∈ dictErase e.pid acc, pr.2 ≠ [] :=
    fun pr hpr => hA pr ((dictErase_sublist e.pid acc).subset hpr)
  cases he : e.entrytype <;> simp only [step, he]
  · exact ⟨hS, accAppend_vals_ne_nil hA⟩
  · cases hg : dictGet e.pid acc
    · exact ⟨hS, hA⟩
    · next h =>
      refine ⟨fun t ht => ?_, herase⟩
      rcases transcripts_add_mem ht with ht' | ht'
      · subst ht'
        have := hA (e.pid, h) (dictGet_mem e.pid hg)
        simpa using this
      · exact hS t ht'
  · cases hg : dictGet e.pid acc
    · exact ⟨hS, hA⟩
    · next h =>
      refine ⟨fun t ht => ?_, herase⟩
      rcases transcripts_add_mem ht with ht' | ht'
      · subst ht'
        have := hA (e.pid, h) (dictGet_mem e.pid hg)
        simpa using this
      · exact hS t ht'

theorem fold_ne_nil :
    ∀ (events : List Entry) (st : Sessions × Acc),
      (∀ t ∈ transcripts st.1, t ≠ []) → (∀ pr ∈ st.2, pr.2 ≠ []) →
      (∀ t ∈ transcripts ((events.foldl step st).1), t ≠ []) ∧
        (∀ pr ∈ (events.foldl step st).2, pr.2 ≠ []) := by
  intro events
  induction events with
  | nil => intro st h1 h2; exact ⟨h1, h2⟩
  | cons e rest ih =>
    intro st h1 h2
    have := @step_ne_nil st e h1 h2
    exact ih (step st e) this.1 this.2

theorem flushAcc_ne_nil :
    ∀ (acc : Acc) (S : Sessions),
      (∀ t ∈ transcripts S, t ≠ []) → (∀ pr ∈ acc, pr.2 ≠ []) →
      ∀ t ∈ transcripts (flushAcc S acc), t ≠ [] := by
  intro acc
  induction acc with
  | nil => intro S hS _; exact hS
  | cons ph rest ih =>
    intro S hS hA
    obtain ⟨p, h⟩ := ph
    refine ih (add_to_sessions p h S) (fun t ht => ?_)
      (fun q hq => hA q (List.mem_cons_of_mem _ hq))
    rcases transcripts_add_mem ht with ht' | ht'
    · subst ht'
      have := hA (p, h) (List.mem_cons_self _ _)
      simpa using this
    · exact hS t ht'

theorem dictGet_dictErase_self [DecidableEq κ] (k : κ) :
    ∀ l : List (κ × β), (l.map Prod.fst).Nodup → dictGet k (dictErase k l) = none := by
  intro l
  induction l with
  | nil => intro _; rfl
  | cons kv rest ih =>
    intro hnd
    obtain ⟨k', v⟩ := kv
    simp only [List.map_cons, List.nodup_cons] at hnd
    by_cases hk : k' = k
    · subst hk
      rw [show dictErase k' ((k', v) :: rest) = rest from by simp [dictErase]]
      cases hg : dictGet k' rest with
      | none => rfl
      | some w => exact absurd (List.mem_map_of_mem Prod.fst (dictGet_mem k' hg)) hnd.1
    · simp only [dictErase, if_neg hk, dictGet, if_neg hk]
      exact ih hnd.2

/-! ### Transcript ordering under the descending scan -/

theorem accAppend_mem_cases {pid : Nat} {x : Pair} :
    ∀ {acc : Acc} {pr : Nat × Transcript}, pr ∈ accAppend pid x acc →
      pr ∈ acc ∨ ∃ h0, pr = (pid, h0 ++ [x]) ∧ ((pid, h0) ∈ acc ∨ h0 = []) := by
  intro acc
  induction acc with
  | nil =>
    intro pr hpr
    simp only [accAppend, List.mem_singleton] at hpr
    exact Or.inr ⟨[], by simpa using hpr, Or.inr rfl⟩
  | cons ph rest ih =>
    intro pr hpr
    obtain ⟨p, h⟩ := ph
    by_cases hp : p = pid
    · simp only [accAppend, if_pos hp, List.mem_cons] at hpr
      rcases hpr with hpr | hpr
      · subst hp
        exact Or.inr ⟨h, hpr, Or.inl (List.mem_cons_self _ _)⟩
      · exact Or.inl (List.mem_cons_of_mem _ hpr)
    · simp only [accAppend, if_neg hp, List.mem_cons] at hpr
      rcases hpr with hpr | hpr
      · exact Or.inl (hpr ▸ List.mem_cons_self _ _)
      · rcases ih hpr with h1 | ⟨h0, heq, hmem⟩
        · exact Or.inl (List.mem_cons_of_mem _ h1)
        · refine Or.inr ⟨h0, heq, ?_⟩
          rcases hmem with hmem | hmem
          · exact Or.inl (List.mem_cons_of_mem _ hmem)
          · exact Or.inr hmem

theorem fold_sorted :
    ∀ (events : List Entry) (S : Sessions) (acc : Acc),
      events.Pairwise (fun a b => b.ts ≤ a.ts) →
      (∀ t ∈ transcripts S, t.Pairwise (fun x y : Pair => x.1 ≤ y.1)) →
      (∀ pr ∈ acc, pr.2.Pairwise (fun x y : Pair => y.1 ≤ x.1)) →
      (∀ pr ∈ acc, ∀ x ∈ pr.2, ∀ e ∈ events, e.ts ≤ x.1) →
      (∀ t ∈ transcripts ((events.foldl step (S, acc)).1),
          t.Pairwise (fun x y : Pair => x.1 ≤ y.1)) ∧
        (∀ pr ∈ (events.foldl step (S, acc)).2,
          pr.2.Pairwise (fun x y : Pair => y.1 ≤ x.1)) := by
  intro events
  induction events with
  | nil => intro S acc _ hS hacc _; exact ⟨hS, hacc⟩
  | cons e rest ih =>
    intro S acc hev hS hacc hbound
    rw [List.foldl_cons]
    rw [List.pairwise_cons] at hev
    cases he : e.entrytype
    · have hstep : step (S, acc) e = (S, accAppend e.pid (e.ts, e.cmdline) acc) := by
        simp [step, he]
      rw [hstep]
      apply ih S _ hev.2 hS
      · intro pr hpr
        rcases accAppend_mem_cases hpr with h1 | ⟨h0, heq, hmem⟩
        · exact hacc pr h1
        · rw [heq]
          simp only
          rw [List.pairwise_append]
          refine ⟨?_, by simp, ?_⟩
          · rcases hmem with hmem | hmem
            · exact hacc (e.pid, h0) hmem
            · subst hmem; simp
          · intro a ha b hb
            simp only [List.mem_singleton] at hb
            subst hb
            rcases hmem with hmem | hmem
            · exact hbound (e.pid, h0) hmem a ha e (List.mem_cons_self _ _)
            · subst hmem; simp at ha
      · intro pr hpr x' hx' e' he'
        rcases accAppend_mem_cases hpr with h1 | ⟨h0, heq, hmem⟩
        · exact hbound pr h1 x' hx' e' (List.mem_cons_of_mem _ he')
        · rw [heq] at hx'
          simp only [List.mem_append, List.mem_singleton] at hx'
          rcases hx' with hx' | hx'
          · rcases hmem with hmem | hmem
            · exact hbound (e.pid, h0) hmem x' hx' e' (List.mem_cons_of_mem _ he')
            · subst hmem; simp at hx'
          · subst hx'
            exact hev.1 e' he'
    · cases hg : dictGet e.pid acc
      · have hstep : step (S, acc) e = (S, acc) := by simp [step, he, hg]
        rw [hstep]
        exact ih _ _ hev.2 hS hacc
          (fun pr hpr x hx e' he' => hbound pr hpr x hx e' (List.mem_cons_of_mem _ he'))
      · next h =>
        have hstep : step (S, acc) e = (add_to_sessions e.pid h S, dictErase e.pid acc) := by
          simp [step, he, hg]
        rw [hstep]
        apply ih _ _ hev.2
        · intro t ht
          rcases transcripts_add_mem ht with ht' | ht'
          · subst ht'
            exact List.pairwise_reverse.mpr (hacc (e.pid, h) (dictGet_mem e.pid hg))
          · exact hS t ht'
        · intro pr hpr
          exact hacc pr ((dictErase_sublist _ _).subset hpr)
        · intro pr hpr x hx e' he'
          exact hbound pr ((dictErase_sublist _ _).subset hpr) x hx e'
            (List.mem_cons_of_mem _ he')
    · cases hg : dictGet e.pid acc
      · have hstep : step (S, acc) e = (S, acc) := by simp [step, he, hg]
        rw [hstep]
        exact ih _ _ hev.2 hS hacc
          (fun pr hpr x hx e' he' => hbound pr hpr x hx e' (List.mem_cons_of_mem _ he'))
      · next h =>
        have hstep : step (S, acc) e = (add_to_sessions e.pid h S, dictErase e.pid acc) := by
          simp [step, he, hg]
        rw [hstep]
        apply ih _ _ hev.2
        · intro t ht
          rcases transcripts_add_mem ht with ht' | ht'
          · subst ht'
            exact List.pairwise_reverse.mpr (hacc (e.pid, h) (dictGet_mem e.pid hg))
          · exact hS t ht'
        · intro pr hpr
          exact hacc pr ((dictErase_sublist _ _).subset hpr)
        · intro pr hpr x hx e' he'
          exact hbound pr ((dictErase_sublist _ _).subset hpr) x hx e'
            (List.mem_cons_of_mem _ he')

theorem flushAcc_sorted :
    ∀ (acc : Acc) (S : Sessions),
      (∀ t ∈ transcripts S, t.Pairwise (fun x y : Pair => x.1 ≤ y.1)) →
      (∀ pr ∈ acc, pr.2.Pairwise (fun x y : Pair => y.1 ≤ x.1)) →
      ∀ t ∈ transcripts (flushAcc S acc), t.Pairwise (fun x y : Pair => x.1 ≤ y.1) := by
  intro acc
  induction acc with
  | nil => intro S hS _; exact hS
  | cons ph rest ih =>
    intro S hS hacc
    obtain ⟨p, h⟩ := ph
    refine ih (add_to_sessions p h S) (fun t ht => ?_)
      (fun q hq => hacc q (List.mem_cons_of_mem _ hq))
    rcases transcripts_add_mem ht with ht' | ht'
    · subst ht'
      exact List.pairwise_reverse.mpr (hacc (p, h) (List.mem_cons_self _ _))
    · exact hS t ht'

/-! ### Recorder lemmas -/

theorem do_append_cases (ts pid : Nat) (c : Option String) (d s : Bool) (log : List Entry) :
    do_append ts pid c d s log = log ∨
      ∃ str, c = some str ∧
        do_append ts pid c d s log = log ++ [⟨.history, ts, pid, some str⟩] := by
  cases c with
  | none => exact Or.inl rfl
  | some str =>
    simp only [do_append]
    by_cases h1 : str = ""
    · exact Or.inl (if_pos h1)
    · rw [if_neg h1]
      by_cases h2 : s = true ∧ str.front = ' '
      · rw [if_pos h2]; exact Or.inl rfl
      · rw [if_neg h2]
        by_cases h3 : pyStrip str ∈ IGNORE_LIST
        · rw [if_pos h3]; exact Or.inl rfl
        · rw [if_neg h3]
          by_cases h4 : d = true ∧ get_last_command log pid = some str
          · rw [if_pos h4]; exact Or.inl rfl
          · rw [if_neg h4]; exact Or.inr ⟨str, rfl, rfl⟩

theorem appendAll_cons (pid : Nat) (d s : Bool) (tc : Nat × String)
    (rest : List (Nat × String)) (log : List Entry) :
    appendAll pid d s (tc :: rest) log =
      appendAll pid d s rest (do_append tc.1 pid (some tc.2) d s log) := rfl

theorem appendAll_length_le :
    ∀ (cmds : List (Nat × String)) (pid : Nat) (d s : Bool) (log : List Entry),
      (appendAll pid d s cmds log).length ≤ log.length + cmds.length := by
  intro cmds
  induction cmds with
  | nil => intro pid d s log; simp [appendAll]
  | cons tc rest ih =>
    intro pid d s log
    rcases do_append_cases tc.1 pid (some tc.2) d s log with h | ⟨str, _, h⟩
    · rw [appendAll_cons, h]
      have := ih pid d s log
      simp only [List.length_cons]
      omega
    · rw [appendAll_cons, h]
      have := ih pid d s (log ++ [⟨.history, tc.1, pid, some str⟩])
      simp only [List.length_append, List.length_cons, List.length_nil] at this ⊢
      omega

theorem appendAll_full :
    ∀ (cmds : List (Nat × String)) (pid : Nat) (d s : Bool) (log : List Entry),
      (appendAll pid d s cmds log).length = log.length + cmds.length →
      appendAll pid d s cmds log =
        log ++ cmds.map fun tc => ⟨.history, tc.1, pid, some tc.2⟩ := by
  intro cmds
  induction cmds with
  | nil => intro pid d s log _; simp [appendAll]
  | cons tc rest ih =>
    intro pid d s log hlen
    rcases do_append_cases tc.1 pid (some tc.2) d s log with h | ⟨str, hstr, h⟩
    · exfalso
      rw [appendAll_cons, h] at hlen
      have := appendAll_length_le rest pid d s log
      simp only [List.length_cons] at hlen
      omega
    · have hstr' : tc.2 = str := Option.some.inj hstr
      subst hstr'
      rw [appendAll_cons, h] at hlen ⊢
      rw [ih pid d s _ (by
        simp only [List.length_append, List.length_cons, List.length_nil] at hlen ⊢
        omega)]
      simp

/-! ### Reconstruction of a boundary-free single-pid log -/

theorem foldl_all_history (pid : Nat) :
    ∀ (stream : List Entry) (S : Sessions) (hacc : Transcript),
      (∀ e ∈ stream, e.entrytype = EntryType.history ∧ e.pid = pid) →
      stream.foldl step (S, [(pid, hacc)]) =
        (S, [(pid, hacc ++ stream.map fun e => (e.ts, e.cmdline))]) := by
  intro stream
  induction stream with
  | nil => intro S hacc _; simp
  | cons e rest ih =>
    intro S hacc hall
    have h0 := hall e (List.mem_cons_self _ _)
    rw [List.foldl_cons]
    have hstep : step (S, [(pid, hacc)]) e =
        (S, [(pid, hacc ++ [(e.ts, e.cmdline)])]) := by
      simp [step, h0.1, h0.2, accAppend]
    rw [hstep, ih S _ (fun e' he' => hall e' (List.mem_cons_of_mem _ he'))]
    simp

theorem get_sessions_all_history (pid : Nat) (stream : List Entry)
    (hne : stream ≠ [])
    (hall : ∀ e ∈ stream, e.entrytype = EntryType.history ∧ e.pid = pid) :
    get_sessions stream =
      [(toString pid, (stream.map fun e => (e.ts, e.cmdline)).reverse)] := by
  cases stream with
  | nil => exact absurd rfl hne
  | cons e0 rest =>
    have h0 := hall e0 (List.mem_cons_self _ _)
    rw [get_sessions_eq]
    have hstep : step (([], []) : Sessions × Acc) e0 =
        ([], [(pid, [(e0.ts, e0.cmdline)])]) := by
      simp [step, h0.1, h0.2, accAppend]
    rw [List.foldl_cons, hstep,
      foldl_all_history pid rest [] [(e0.ts, e0.cmdline)]
        (fun e' he' => hall e' (List.mem_cons_of_mem _ he'))]
    simp [flushAcc, add_to_sessions, flatOf, labeled, sessionName_zero]

/-! ### The Presenter's comparison -/

theorem keyLe_trans :
    ∀ a b c : Option Nat, keyLe a b = true → keyLe b c = true → keyLe a c = true := by
  intro a b c hab hbc
  cases a <;> cases b <;> cases c <;> simp_all [keyLe]
  omega

theorem keyLe_total : ∀ a b : Option Nat, keyLe a b || keyLe b a := by
  intro a b
  cases a <;> cases b <;> simp_all [keyLe, Bool.or_eq_true]
  omega

/-! ### Claims -/

/-- C1: for the event sequence START@1, HIST("a")@2, STOP@3, START@10,
HIST("b")@11, STOP@12 on one pid, `get_sessions` (reading the store in
descending timestamp order) produces exactly two transcripts: the most
recent session `[(11,"b")]` under the bare identifier, and the older
session `[(2,"a")]` under the identifier with suffix `_1`; and in
general the completed transcript at position 0 of a pid's list is named
`sessionName pid 0 = toString pid` while position `i > 0` is named
`toString pid ++ "_" ++ toString i`. -/
theorem C1_pid_reuse (p : Nat) :
    get_sessions (storeRead
        [⟨EntryType.session_start, 1, p, none⟩, ⟨EntryType.history, 2, p, some "a"⟩,
          ⟨EntryType.session_stop, 3, p, none⟩, ⟨EntryType.session_start, 10, p, none⟩,
          ⟨EntryType.history, 11, p, some "b"⟩, ⟨EntryType.session_stop, 12, p, none⟩]) =
      [(toString p, [(11, some "b")]), (toString p ++ "_1", [(2, some "a")])] ∧
    (∀ S : Sessions, (S.map Prod.fst).Nodup → flattenSessions S [] = flatOf S) ∧
    sessionName p 0 = toString p ∧
    (∀ i : Nat, 0 < i → sessionName p i = toString p ++ "_" ++ toString i) := by
  refine ⟨?_, fun S h => flattenSessions_eq S [] h (by simp), sessionName_zero p,
    fun i hi => sessionName_pos p i hi⟩
  rw [show storeRead
      [⟨EntryType.session_start, 1, p, none⟩, ⟨EntryType.history, 2, p, some "a"⟩,
        ⟨EntryType.session_stop, 3, p, none⟩, ⟨EntryType.session_start, 10, p, none⟩,
        ⟨EntryType.history, 11, p, some "b"⟩, ⟨EntryType.session_stop, 12, p, none⟩] =
      [⟨EntryType.session_stop, 12, p, none⟩, ⟨EntryType.history, 11, p, some "b"⟩,
        ⟨EntryType.session_start, 10, p, none⟩, ⟨EntryType.session_stop, 3, p, none⟩,
        ⟨EntryType.history, 2, p, some "a"⟩, ⟨EntryType.session_start, 1, p, none⟩]
      from by simp [storeRead]]
  rw [get_sessions_eq]
  simp only [List.foldl_cons, List.foldl_nil, step, dictGet, accAppend, dictErase,
    add_to_sessions, if_true, eq_self_iff_true]
  simp only [flushAcc, flatOf, labeled, List.append_nil, List.reverse_cons,
    List.reverse_nil, List.nil_append]
  rw [sessionName_zero, show (0 + 1 : Nat) = 1 from rfl, sessionName_pos p 1 (by omega),
    show (toString (1 : Nat)) = "1" from by decide, String.append_assoc,
    show ("_" ++ "1" : String) = "_1" from by decide]

/-- C2: every HISTORY event of the input stream appears in exactly one
transcript of `get_sessions`' output, and no transcript holds a pair
absent from the stream: the pairs of all output transcripts are a
permutation of the pairs of the stream's HISTORY events. -/
theorem C2_history_conservation (events : List Entry) :
    List.Perm (((get_sessions events).map Prod.snd).flatten) (histPairs events) := by
  rw [get_sessions_eq, flatOf_map_snd, ← Multiset.coe_eq_coe]
  show (sessPairs (flushAcc _ _) : Multiset Pair) = _
  rw [sessPairs_flushAcc, fold_pairs events ([], [])]
  simp [sessPairs, transcripts, accPairs]

/-- C3: on any event stream ordered by descending timestamp (as the store
query returns it), every transcript produced by `get_sessions` has
non-decreasing timestamps. -/
theorem C3_transcripts_sorted (events : List Entry)
    (hdesc : events.Pairwise fun a b => b.ts ≤ a.ts) :
    ∀ pr ∈ get_sessions events, pr.2.Pairwise fun x y : Pair => x.1 ≤ y.1 := by
  intro pr hpr
  have hsnd : pr.2 ∈ transcripts
      (flushAcc (events.foldl step ([], [])).1 (events.foldl step ([], [])).2) := by
    have := List.mem_map_of_mem Prod.snd hpr
    rwa [get_sessions_eq, flatOf_map_snd] at this
  have hfold := fold_sorted events [] [] hdesc (by simp [transcripts]) (by simp) (by simp)
  exact flushAcc_sorted _ _ hfold.1 hfold.2 _ hsnd

/-- C3 witness: the descending stream STOP@4, HIST("b")@3, HIST("a")@2,
START@1 for pid 5 yields the transcript `[(2,"a"),(3,"b")]`, which is in
ascending timestamp order. -/
theorem C3_transcripts_sorted_witness :
    ([⟨EntryType.session_stop, 4, 5, none⟩, ⟨EntryType.history, 3, 5, some "b"⟩,
        ⟨EntryType.history, 2, 5, some "a"⟩, ⟨EntryType.session_start, 1, 5, none⟩] :
      List Entry).Pairwise (fun a b => b.ts ≤ a.ts) ∧
    (("5", [(2, some "a"), (3, some "b")]) : String × Transcript) ∈
      get_sessions
        [⟨EntryType.session_stop, 4, 5, none⟩, ⟨EntryType.history, 3, 5, some "b"⟩,
          ⟨EntryType.history, 2, 5, some "a"⟩, ⟨EntryType.session_start, 1, 5, none⟩] ∧
    List.Pairwise (fun x y : Pair => x.1 ≤ y.1) [(2, some "a"), (3, some "b")] :=
  ⟨by decide, by decide,
    C3_transcripts_sorted
      [⟨EntryType.session_stop, 4, 5, none⟩, ⟨EntryType.history, 3, 5, some "b"⟩,
        ⟨EntryType.history, 2, 5, some "a"⟩, ⟨EntryType.session_start, 1, 5, none⟩]
      (by decide) ("5", [(2, some "a"), (3, some "b")]) (by decide)⟩

theorem get_last_command_nil (pid : Nat) : get_last_command [] pid = none := rfl

theorem get_last_command_singleton (t pid : Nat) (c : String) :
    get_last_command [⟨EntryType.history, t, pid, some c⟩] pid = some c := by
  simp [get_last_command, betterLast]

theorem do_append_ls_first (t pid : Nat) (d : Bool) :
    do_append t pid (some "ls -la") d true [] =
      [⟨EntryType.history, t, pid, some "ls -la"⟩] := by
  have h4 : ¬ (d = true ∧ get_last_command [] pid = some "ls -la") := by
    rintro ⟨-, h⟩
    rw [get_last_command_nil] at h
    exact Option.noConfusion h
  simp only [do_append]
  rw [if_neg (by decide), if_neg (by decide), if_neg (by decide), if_neg h4]
  rfl

theorem do_append_ls_second (t1 t2 pid : Nat) :
    do_append t2 pid (some "ls -la") true true
        [⟨EntryType.history, t1, pid, some "ls -la"⟩] =
      [⟨EntryType.history, t1, pid, some "ls -la"⟩] := by
  simp only [do_append]
  rw [if_neg (by decide), if_neg (by decide), if_neg (by decide),
    if_pos ⟨trivial, get_last_command_singleton t1 pid "ls -la"⟩]

theorem do_append_ls_second_nodup (t1 t2 pid : Nat) :
    do_append t2 pid (some "ls -la") false true
        [⟨EntryType.history, t1, pid, some "ls -la"⟩] =
      [⟨EntryType.history, t1, pid, some "ls -la"⟩,
        ⟨EntryType.history, t2, pid, some "ls -la"⟩] := by
  simp only [do_append]
  rw [if_neg (by decide), if_neg (by decide), if_neg (by decide),
    if_neg (by rintro ⟨h, -⟩; exact absurd h (by decide))]
  rfl

/-- C4: `do_append` appends a HISTORY event exactly when none of the four
suppression rules fires (empty or absent command, leading space under
`ignore_space`, stripped command in the ignore list, identical most
recent command under `ignore_dups`, checked in this order); in particular
under default settings "pwd" and " secret" record nothing, and appending
"ls -la" twice in a row for one pid stores one HISTORY event with
duplicate suppression on and two with it off. -/
theorem C4_recordHistory (ts pid : Nat) (d s : Bool) (log : List Entry) (c : String) :
    do_append ts pid none d s log = log ∧
    do_append ts pid (some c) d s log =
      (if c = "" ∨ (s = true ∧ c.front = ' ') ∨ pyStrip c ∈ IGNORE_LIST ∨
          (d = true ∧ get_last_command log pid = some c) then log
        else log ++ [⟨EntryType.history, ts, pid, some c⟩]) ∧
    do_append ts pid (some "pwd") true true log = log ∧
    do_append ts pid (some " secret") true true log = log ∧
    do_append 6 pid (some "ls -la") true true
        (do_append 5 pid (some "ls -la") true true []) =
      [⟨EntryType.history, 5, pid, some "ls -la"⟩] ∧
    do_append 6 pid (some "ls -la") false true
        (do_append 5 pid (some "ls -la") false true []) =
      [⟨EntryType.history, 5, pid, some "ls -la"⟩,
        ⟨EntryType.history, 6, pid, some "ls -la"⟩] := by
  refine ⟨rfl, ?_, ?_, ?_, ?_, ?_⟩
  · simp only [do_append]
    by_cases h1 : c = ""
    · rw [if_pos h1, if_pos (Or.inl h1)]
    · rw [if_neg h1]
      by_cases h2 : s = true ∧ c.front = ' '
      · rw [if_pos h2, if_pos (Or.inr (Or.inl h2))]
      · rw [if_neg h2]
        by_cases h3 : pyStrip c ∈ IGNORE_LIST
        · rw [if_pos h3, if_pos (Or.inr (Or.inr (Or.inl h3)))]
        · rw [if_neg h3]
          by_cases h4 : d = true ∧ get_last_command log pid = some c
          · rw [if_pos h4, if_pos (Or.inr (Or.inr (Or.inr h4)))]
          · rw [if_neg h4, if_neg (by tauto)]
  · simp only [do_append]
    rw [if_neg (by decide), if_neg (by decide), if_pos (by decide)]
  · simp only [do_append]
    rw [if_neg (by decide), if_pos (by decide)]
  · rw [do_append_ls_first 5 pid true, do_append_ls_second 5 6 pid]
  · rw [do_append_ls_first 5 pid false, do_append_ls_second_nodup 5 6 pid]

/-- C5 counterexample: the empty-command and ignore-list suppression
rules fire under every configuration of the two flags `ignore_dups` and
`ignore_space`, so neither rule is toggleable: there is no configuration
under which `do_append` records an empty command or "pwd". -/
theorem C5_counterexample :
    do_append 1 1 (some "") true true [] = [] ∧
    do_append 1 1 (some "") true false [] = [] ∧
    do_append 1 1 (some "") false true [] = [] ∧
    do_append 1 1 (some "") false false [] = [] ∧
    do_append 1 1 (some "pwd") true true [] = [] ∧
    do_append 1 1 (some "pwd") true false [] = [] ∧
    do_append 1 1 (some "pwd") false true [] = [] ∧
    do_append 1 1 (some "pwd") false false [] = [] := by
  decide

/-- C5 amended: only the leading-space and duplicate suppression rules
are independently toggleable (via `ignore_space` and `ignore_dups`, both
defaulting to suppression enabled); the empty-command and ignore-list
rules are active under every configuration. -/
theorem C5_toggleable_flags (ts pid : Nat) (d s : Bool) (log : List Entry) :
    do_append ts pid none d s log = log ∧
    do_append ts pid (some "") d s log = log ∧
    do_append ts pid (some "pwd") d s log = log ∧
    do_append ts pid (some "ls") d s log = log ∧
    do_append 1 7 (some " secret") true false [] =
      [⟨EntryType.history, 1, 7, some " secret"⟩] ∧
    do_append 1 7 (some " secret") true true [] = [] ∧
    do_append 6 7 (some "ls -la") true true
        (do_append 5 7 (some "ls -la") true true []) =
      [⟨EntryType.history, 5, 7, some "ls -la"⟩] ∧
    do_append 6 7 (some "ls -la") false true
        (do_append 5 7 (some "ls -la") false true []) =
      [⟨EntryType.history, 5, 7, some "ls -la"⟩,
        ⟨EntryType.history, 6, 7, some "ls -la"⟩] := by
  refine ⟨rfl, ?_, ?_, ?_, by decide, by decide, by decide, by decide⟩
  · simp only [do_append]
    simp
  · simp only [do_append]
    rw [if_neg (by decide), if_neg (by rintro ⟨-, h⟩; exact absurd h (by decide)),
      if_pos (by decide)]
  · simp only [do_append]
    rw [if_neg (by decide), if_neg (by rintro ⟨-, h⟩; exact absurd h (by decide)),
      if_pos (by decide)]

/-- C6: `get_sessions` never emits an empty transcript; a boundary event
for a pid with no open accumulator is a no-op, and repeating the same
boundary event with no intervening HISTORY makes the second one a no-op. -/
theorem C6_no_empty_transcript (events : List Entry) (S : Sessions) (acc : Acc)
    (e : Entry) :
    (∀ pr ∈ get_sessions events, pr.2 ≠ []) ∧
    ((e.entrytype = EntryType.session_start ∨ e.entrytype = EntryType.session_stop) →
      dictGet e.pid acc = none → step (S, acc) e = (S, acc)) ∧
    ((e.entrytype = EntryType.session_start ∨ e.entrytype = EntryType.session_stop) →
      (acc.map Prod.fst).Nodup → step (step (S, acc) e) e = step (S, acc) e) := by
  refine ⟨?_, ?_, ?_⟩
  · intro pr hpr
    have hsnd : pr.2 ∈ transcripts
        (flushAcc (events.foldl step ([], [])).1 (events.foldl step ([], [])).2) := by
      have := List.mem_map_of_mem Prod.snd hpr
      rwa [get_sessions_eq, flatOf_map_snd] at this
    have hfold := fold_ne_nil events ([], []) (by simp [transcripts]) (by simp)
    exact flushAcc_ne_nil _ _ hfold.1 hfold.2 _ hsnd
  · intro hb hg
    rcases hb with hb | hb
    · simp [step, hb, hg]
    · simp [step, hb, hg]
  · intro hb hnd
    have hnone : dictGet e.pid (dictErase e.pid acc) = none :=
      dictGet_dictErase_self e.pid acc hnd
    rcases hb with hb | hb
    · cases hg : dictGet e.pid acc
      · simp [step, hb, hg]
      · simp [step, hb, hg, hnone]
    · cases hg : dictGet e.pid acc
      · simp [step, hb, hg]
      · simp [step, hb, hg, hnone]

/-- C7: appending N ≥ 1 well-formed HISTORY commands for one pid in
chronological order (no boundary events; no suppression rule fires, so
all N are recorded) and reconstructing yields exactly one transcript,
named by the bare pid, holding those N entries in original order. -/
theorem C7_round_trip (pid N : Nat) (cmds : List (Nat × String))
    (hN : cmds.length = N) (hpos : 1 ≤ N)
    (_hchron : cmds.Pairwise fun a b => a.1 ≤ b.1)
    (hrec : (appendAll pid true true cmds []).length = N) :
    get_sessions (storeRead (appendAll pid true true cmds [])) =
      [(toString pid, cmds.map fun tc => (tc.1, some tc.2))] := by
  subst hN
  have hfull := appendAll_full cmds pid true true [] (by simpa using hrec)
  rw [hfull, storeRead, List.nil_append]
  have hne : (cmds.map fun tc : Nat × String =>
      (⟨EntryType.history, tc.1, pid, some tc.2⟩ : Entry)).reverse ≠ [] := by
    intro h
    have hlen := congrArg List.length h
    simp only [List.length_reverse, List.length_map, List.length_nil] at hlen
    omega
  have hall : ∀ e ∈ (cmds.map fun tc : Nat × String =>
      (⟨EntryType.history, tc.1, pid, some tc.2⟩ : Entry)).reverse,
      e.entrytype = EntryType.history ∧ e.pid = pid := by
    intro e he
    simp only [List.mem_reverse, List.mem_map] at he
    obtain ⟨tc, -, rfl⟩ := he
    exact ⟨rfl, rfl⟩
  rw [get_sessions_all_history pid _ hne hall]
  simp [List.map_reverse, List.map_map, Function.comp]

/-- C7 witness: two well-formed commands "a"@1 and "b"@2 for pid 3 are
both recorded and reconstruct to the single transcript named "3" in
original order. -/
theorem C7_round_trip_witness :
    (appendAll 3 true true [(1, "a"), (2, "b")] []).length = 2 ∧
    get_sessions (storeRead (appendAll 3 true true [(1, "a"), (2, "b")] [])) =
      [("3", [(1, some "a"), (2, some "b")])] :=
  ⟨by decide,
    C7_round_trip 3 2 [(1, "a"), (2, "b")] (by decide) (by decide) (by decide) (by decide)⟩

/-- C8: `check_db` fails (raises the schema error) exactly when the
store's application id differs from `0x6e6577` or its version differs
from 7, succeeds when both match, and this check gates the requested
command: on an existing store the command runs against it exactly when
the check succeeds, and a failed check without `--fix` aborts. -/
theorem C8_schema_check (a v : Int) (fix : Bool) :
    (check_db a v = Except.ok true ↔ a = DB_APPLICATION_ID ∧ v = DB_VERSION) ∧
    ((∃ msg, check_db a v = Except.error msg) ↔
      a ≠ DB_APPLICATION_ID ∨ v ≠ DB_VERSION) ∧
    (main_gate true a v fix = MainOutcome.opRan false ↔ check_db a v = Except.ok true) ∧
    ((∃ msg, check_db a v = Except.error msg) →
      main_gate true a v false = MainOutcome.aborted) := by
  by_cases ha : a = DB_APPLICATION_ID <;> by_cases hv : v = DB_VERSION <;>
    cases fix <;> simp [check_db, main_gate, ha, hv]

/-- C9: `do_show` renders the reconstructed sessions sorted ascending by
each transcript's last timestamp: whenever one rendered transcript
precedes another and both are non-empty, the earlier one's last entry
has the smaller-or-equal timestamp; and the rendered list is a
permutation of the reconstructed sessions. -/
theorem C9_presenter_order (events : List Entry) :
    (do_show_items events).Pairwise
      (fun a b => ∀ ta tb, hist_key a.2 = some ta → hist_key b.2 = some tb → ta ≤ tb) ∧
    List.Perm (do_show_items events) (get_sessions events) := by
  constructor
  · have hs := List.sorted_mergeSort
      (fun a b c : String × Transcript =>
        keyLe_trans (hist_key a.2) (hist_key b.2) (hist_key c.2))
      (fun a b : String × Transcript => keyLe_total (hist_key a.2) (hist_key b.2))
      (get_sessions events)
    refine hs.imp ?_
    intro a b hab ta tb hta htb
    rw [hta, htb] at hab
    simpa [keyLe] using hab
  · exact List.mergeSort_perm (get_sessions events) _

/-- C10: the session identifiers `get_sessions` returns are pairwise
distinct — decimal pid numerals contain no underscore, so a bare pid
name never collides with an indexed one and distinct (pid, index) pairs
give distinct names — hence flattening overwrites nothing and the number
of returned bindings equals the total number of completed transcripts. -/
theorem C10_distinct_identifiers (events : List Entry) :
    ((get_sessions events).map Prod.fst).Nodup ∧
    (get_sessions events).length = totalTranscripts events := by
  have hnd := nodup_keys_foldl events ([], []) (by simp) (by simp)
  have hfl := nodup_keys_flushAcc (events.foldl step ([], [])).2
    (events.foldl step ([], [])).1 hnd.1
  constructor
  · rw [get_sessions_eq]
    exact nodup_keys_flatOf hfl
  · rw [get_sessions_eq, totalTranscripts]
    have hlen := congrArg List.length (flatOf_map_snd
      (flushAcc (events.foldl step ([], [])).1 (events.foldl step ([], [])).2))
    simpa using hlen

end Wen
